import Mathlib

/-!
Verification of the reversible ripple-carry adder synthesizer in
`shor/_add_same_size_no_controls.py`.

The Python module emits sequences of elementary reversible gates
(controlled NOT, controlled SWAP, multi-target controlled NOT, global NOT)
acting on named qubit wires.  We shallowly embed the emission functions as
Lean functions producing `List Gate`, and give the gates their standard
classical reversible semantics as bijections on bit states
(`State = Nat → Bool`, a wire number holds a bit).

The recursive wrapper `do_addition_no_controls` never terminates in the
source (it recurses into itself with the same shape); we model it with an
explicit recursion-depth fuel parameter, mirroring Python's recursion
limit, and failure outcomes (`NotImplementedError`, recursion limit) as
values.
-/

namespace Shor

/-- A classical state of the machine: each wire (numbered by a `Nat`)
holds one bit.  Registers are lists of wire numbers, index 0 the least
significant bit. -/
def State := Nat → Bool

/-- The elementary gate invocations emitted by the synthesizer:
`cnot c t` is `C(X) | (c, t)`, `cswap c a b` is `C(Swap) | (c, a, b)`,
`mcnot cs ts` is `C(All(X), len(cs)) | (cs, ts)` (with `cs = [c]` for the
single-control `C(All(X))`), and `notall ts` is `All(X) | ts`. -/
inductive Gate
  | cnot (c t : Nat)
  | cswap (c a b : Nat)
  | mcnot (cs : List Nat) (ts : List Nat)
  | notall (ts : List Nat)
  deriving DecidableEq

/-- Classical semantics of one gate.  A controlled gate reads its control
wires and conditionally transforms its target wires; the multi-target NOT
and the global NOT flip every listed target wire (target wires of one
command are distinct qubits). -/
def applyGate : Gate → State → State
  | .cnot c t, s => fun w => if w = t then Bool.xor (s t) (s c) else s w
  | .cswap c a b, s => fun w =>
      if s c then (if w = a then s b else if w = b then s a else s w) else s w
  | .mcnot cs ts, s => fun w =>
      if cs.all s = true ∧ w ∈ ts then !(s w) else s w
  | .notall ts, s => fun w => if w ∈ ts then !(s w) else s w

/-- Running an emitted gate sequence in program order. -/
def applySeq (gs : List Gate) (s : State) : State :=
  gs.foldl (fun t g => applyGate g t) s

/-- Every primitive used here is self-inverse, so the `Dagger` meta-context
maps each command to itself. -/
def Gate.inverse : Gate → Gate
  | .cnot c t => .cnot c t
  | .cswap c a b => .cswap c a b
  | .mcnot cs ts => .mcnot cs ts
  | .notall ts => .notall ts

/-- The `Dagger` combinator: replay the recorded commands in reverse order
with each gate replaced by its inverse.  `do_subtraction_no_controls`
wraps the addition emission in exactly this combinator. -/
def dagger (gs : List Gate) : List Gate :=
  (gs.map Gate.inverse).reverse

/-- Unsigned little-endian value of a list of bits. -/
def bitsToNat : List Bool → Nat
  | [] => 0
  | b :: bs => (cond b 1 0) + 2 * bitsToNat bs

/-- Majority of three bits: the carry-out of a full adder. -/
def maj (a b c : Bool) : Bool :=
  (a && b) || ((a && c) || (b && c))

/-- Little-endian ripple addition of bit lists with carry-in `c`,
truncated to the length of the second addend. -/
def addBits : List Bool → List Bool → Bool → List Bool
  | _, [], _ => []
  | [], b :: bs, c => Bool.xor b c :: addBits [] bs (b && c)
  | a :: as, b :: bs, c => Bool.xor a (Bool.xor b c) :: addBits as bs (maj a b c)

/-- Gate sequence emitted by `do_addition_with_same_size_and_no_controls`
(`_add_same_size_no_controls.py` lines 58-85).  The registers are lists of
wire numbers; the Python `assert len(input_reg) == len(target_reg)`
precondition appears as a hypothesis of the theorems below.  `n == 0`
emits nothing; otherwise the five phases are emitted in program order:
the dirty-MSB correction `cnots | (carry_bit, (input_reg[:-1] +
target_reg)[::-1])`, the forward ripple over `range(n - 1)`, the high-bit
toggle, the backward ripple over `reversed(range(n - 1))`, and the second
dirty-MSB correction `cnots | (carry_bit, input_reg[:-1] + target_reg)`. -/
def do_addition_with_same_size_and_no_controls
    (input_reg target_reg : List Nat) : List Gate :=
  let n := target_reg.length
  if n = 0 then []
  else
    let carry_bit := input_reg.getLastD 0
    [Gate.mcnot [carry_bit] ((input_reg.dropLast ++ target_reg).reverse)]
    ++ (List.range (n - 1)).flatMap (fun i =>
        [Gate.cnot carry_bit (target_reg.getD i 0),
         Gate.cswap (target_reg.getD i 0) carry_bit (input_reg.getD i 0)])
    ++ [Gate.cnot carry_bit (target_reg.getLastD 0)]
    ++ ((List.range (n - 1)).reverse).flatMap (fun i =>
        [Gate.cswap (target_reg.getD i 0) carry_bit (input_reg.getD i 0),
         Gate.cnot (input_reg.getD i 0) (target_reg.getD i 0)])
    ++ [Gate.mcnot [carry_bit] (input_reg.dropLast ++ target_reg)]

/-- Proof-oriented restatement of the middle three phases (forward ripple,
high-bit toggle, backward ripple) as a nested recursion over the register
bit pairs; `coreGates_eq_loops` below proves it equal to the loop form
emitted by the source. -/
def coreGates : List Nat → List Nat → Nat → List Gate
  | [], [y], c => [Gate.cnot c y]
  | x :: xs, y :: ys, c =>
      Gate.cnot c y :: Gate.cswap y c x ::
        (coreGates xs ys c ++ [Gate.cswap y c x, Gate.cnot x y])
  | _, _, _ => []

/-- Failure outcomes of the Python wrappers: the explicit
`NotImplementedError` raise, and exhaustion of the interpreter's recursion
limit (`RecursionError`). -/
inductive EmitError
  | notImplemented
  | recursionLimit
  deriving DecidableEq

/-- Model of `do_addition_no_controls` (lines 88-95).  The function
recurses into itself after truncating `input_reg` to `target_reg`'s
length, so the recursion is bounded by an explicit fuel parameter
(Python's recursion limit); the result is the list of gates emitted before
returning or failing, together with the failure if one occurred.  Note the
source really does call itself, not the same-size synthesizer. -/
def do_addition_no_controls : Nat → List Nat → List Nat →
    List Gate × Option EmitError
  | 0, _, _ => ([], some EmitError.recursionLimit)
  | fuel + 1, input_reg, target_reg =>
    if target_reg.length ≤ input_reg.length then
      do_addition_no_controls fuel (input_reg.take target_reg.length) target_reg
    else
      ([], some EmitError.notImplemented)

/-- Model of `do_addition` (lines 98-107): with no controls delegate to
`do_addition_no_controls`; otherwise run the double-add-invert trick on
`expanded = [dirty] + target_reg`, stopping at the first failure and
keeping any gates already emitted. -/
def do_addition (fuel : Nat) (input_reg target_reg : List Nat)
    (dirty : Nat) (controls : List Nat) : List Gate × Option EmitError :=
  if controls.length = 0 then
    do_addition_no_controls fuel input_reg target_reg
  else
    let expanded := dirty :: target_reg
    let p1 := do_addition_no_controls fuel input_reg expanded
    match p1.2 with
    | some e => (p1.1, some e)
    | none =>
      let g1 := p1.1 ++ [Gate.mcnot controls expanded, Gate.notall expanded]
      let p2 := do_addition_no_controls fuel input_reg expanded
      match p2.2 with
      | some e => (g1 ++ p2.1, some e)
      | none => (g1 ++ p2.1 ++ [Gate.mcnot controls expanded, Gate.notall expanded], none)

/-- The version of `do_addition_no_controls` the source comment ("When
input is larger, just ignore its high bits") and its docstring intend:
truncate the input register and delegate to the same-size synthesizer
instead of recursing into itself. -/
def do_addition_no_controls_intended (input_reg target_reg : List Nat) :
    Option (List Gate) :=
  if target_reg.length ≤ input_reg.length then
    some (do_addition_with_same_size_and_no_controls
      (input_reg.take target_reg.length) target_reg)
  else
    none

/-- `do_addition` with the intended `do_addition_no_controls` (the two
passes of the loop emit identical gate lists, since emission is a pure
function of register shapes). -/
def do_addition_intended (input_reg target_reg : List Nat)
    (dirty : Nat) (controls : List Nat) : Option (List Gate) :=
  if controls.length = 0 then
    do_addition_no_controls_intended input_reg target_reg
  else
    let expanded := dirty :: target_reg
    match do_addition_no_controls_intended input_reg expanded with
    | none => none
    | some g =>
      some ((g ++ [Gate.mcnot controls expanded, Gate.notall expanded])
        ++ (g ++ [Gate.mcnot controls expanded, Gate.notall expanded]))

/-- Operation tags of the two `BasicGate` subclasses registered with the
decomposition rules (lines 120-133). -/
inductive GateKind
  | AdditionGate
  | SubtractionGate
  deriving DecidableEq

/-- `get_inverse` of the two gate classes: each returns an instance of the
other class. -/
def get_inverse : GateKind → GateKind
  | .AdditionGate => .SubtractionGate
  | .SubtractionGate => .AdditionGate

/-- Both classes' `get_merged` unconditionally raise `NotMergeable`,
whatever the argument. -/
def get_merged {α : Type} (_g : GateKind) (_other : α) :
    Except String GateKind :=
  Except.error "BasicGate: No get_merged() implemented."

/-- Concrete six-wire state used by the witnesses below: wires 0 and 2 set
(input register `[0,1,2]` holds 5), wire 4 set (target register `[3,4,5]`
holds 2), every other wire clear. -/
def witState : State := fun w => decide (w = 0 ∨ w = 2 ∨ w = 4)

/-! ## Basic facts about gate application -/

theorem applySeq_nil (s : State) : applySeq [] s = s := rfl

theorem applySeq_cons (g : Gate) (gs : List Gate) (s : State) :
    applySeq (g :: gs) s = applySeq gs (applyGate g s) := rfl

theorem applySeq_append (gs1 gs2 : List Gate) (s : State) :
    applySeq (gs1 ++ gs2) s = applySeq gs2 (applySeq gs1 s) :=
  List.foldl_append _ _ _ _

theorem applyGate_cnot_apply (c t : Nat) (s : State) (w : Nat) :
    applyGate (Gate.cnot c t) s w =
      if w = t then Bool.xor (s t) (s c) else s w := rfl

theorem applyGate_cswap_apply (c a b : Nat) (s : State) (w : Nat) :
    applyGate (Gate.cswap c a b) s w =
      if s c = true then (if w = a then s b else if w = b then s a else s w)
      else s w := rfl

theorem applyGate_mcnot_apply (cs ts : List Nat) (s : State) (w : Nat) :
    applyGate (Gate.mcnot cs ts) s w =
      if cs.all s = true ∧ w ∈ ts then !(s w) else s w := rfl

theorem applyGate_notall_apply (ts : List Nat) (s : State) (w : Nat) :
    applyGate (Gate.notall ts) s w = if w ∈ ts then !(s w) else s w := rfl

/-- Unpacking the distinctness hypothesis of one ripple step. -/
theorem nodup_unpack {c x y : Nat} {xs ys : List Nat}
    (hnd : (c :: ((x :: xs) ++ (y :: ys))).Nodup) :
    (c :: (xs ++ ys)).Nodup ∧ c ≠ x ∧ c ≠ y ∧ c ∉ xs ∧ c ∉ ys ∧
    x ≠ y ∧ x ∉ xs ∧ x ∉ ys ∧ y ∉ xs ∧ y ∉ ys := by
  rw [show (x :: xs) ++ (y :: ys) = x :: (xs ++ y :: ys) from rfl] at hnd
  obtain ⟨hc, hnd⟩ := List.nodup_cons.mp hnd
  obtain ⟨hx, hnd⟩ := List.nodup_cons.mp hnd
  have hperm : (xs ++ y :: ys).Perm (y :: (xs ++ ys)) := List.perm_middle
  have hnd' : (y :: (xs ++ ys)).Nodup := hperm.nodup_iff.mp hnd
  obtain ⟨hy, hnd''⟩ := List.nodup_cons.mp hnd'
  simp only [List.mem_cons, List.mem_append, not_or] at hc hx hy
  exact ⟨List.nodup_cons.mpr ⟨by
      simp only [List.mem_append, not_or]
      exact ⟨hc.2.1, hc.2.2.2⟩, hnd''⟩,
    hc.1, hc.2.2.1, hc.2.1, hc.2.2.2,
    hx.2.1, hx.1, hx.2.2,
    hy.1, hy.2⟩

/-- Correctness of the middle three phases (`coreGates`): with the carry
wire `c` holding the carry-in, the target wires `ys` end up holding the
ripple sum of the values on `xs` and `ys` with that carry-in, and every
wire outside `ys` (in particular `c` and all of `xs`) is restored. -/
theorem coreGates_spec : ∀ (xs ys : List Nat) (c : Nat) (s : State),
    xs.length + 1 = ys.length →
    (c :: (xs ++ ys)).Nodup →
    (ys.map (applySeq (coreGates xs ys c) s)
        = addBits (xs.map s) (ys.map s) (s c))
    ∧ ∀ w, w ∉ ys → applySeq (coreGates xs ys c) s w = s w := by
  intro xs
  induction xs with
  | nil =>
    intro ys c s hlen hnd
    match ys, hlen with
    | [y], _ =>
      constructor
      · simp [coreGates, applySeq, applyGate, addBits]
      · intro w hw
        simp only [List.mem_singleton] at hw
        simp [coreGates, applySeq, applyGate, hw]
  | cons x xs ih =>
    intro ys c s hlen hnd
    cases ys with
    | nil => simp at hlen
    | cons y ys =>
      have hlen' : xs.length + 1 = ys.length := by
        simpa using hlen
      obtain ⟨hnd', hcx, hcy, hcxs, hcys, hxy, hxxs, hxys, hyxs, hyys⟩ :=
        nodup_unpack hnd
      have hemit : coreGates (x :: xs) (y :: ys) c
          = Gate.cnot c y :: Gate.cswap y c x ::
              (coreGates xs ys c ++ [Gate.cswap y c x, Gate.cnot x y]) := rfl
      rw [hemit, applySeq_cons, applySeq_cons, applySeq_append]
      set s2 : State :=
        applyGate (Gate.cswap y c x) (applyGate (Gate.cnot c y) s) with hs2
      have h2 : ∀ w, s2 w =
          if w = c then maj (s x) (s y) (s c)
          else if w = x then (if Bool.xor (s y) (s c) = true then s c else s x)
          else if w = y then Bool.xor (s y) (s c)
          else s w := by
        intro w
        rw [hs2]
        simp only [applyGate_cswap_apply, applyGate_cnot_apply, if_pos rfl,
          if_neg hcy, if_neg hxy]
        by_cases hwc : w = c
        · subst hwc
          simp only [if_pos rfl, if_neg hcy, if_neg hcx]
          cases hsx : s x <;> cases hsy : s y <;> cases hsc : s w <;>
            simp [maj]
        · by_cases hwx : w = x
          · subst hwx
            simp only [if_neg hwc, if_pos rfl, if_neg hxy]
            cases hsx : s w <;> cases hsy : s y <;> cases hsc : s c <;>
              simp [maj, hwc]
          · by_cases hwy : w = y
            · subst hwy
              simp [hwc, hwx]
            · simp [hwc, hwx, hwy]
      have h2c : s2 c = maj (s x) (s y) (s c) := by
        rw [h2]; simp
      have h2x : s2 x = if Bool.xor (s y) (s c) = true then s c else s x := by
        rw [h2]; simp [Ne.symm hcx]
      have h2y : s2 y = Bool.xor (s y) (s c) := by
        rw [h2]; simp [Ne.symm hcy, Ne.symm hxy]
      have h2other : ∀ w, w ≠ c → w ≠ x → w ≠ y → s2 w = s w := by
        intro w hwc hwx hwy
        rw [h2]; simp [hwc, hwx, hwy]
      have hmapxs : xs.map s2 = xs.map s :=
        List.map_congr_left fun w hw => h2other w
          (fun h => hcxs (h ▸ hw)) (fun h => hxxs (h ▸ hw))
          (fun h => hyxs (h ▸ hw))
      have hmapys : ys.map s2 = ys.map s :=
        List.map_congr_left fun w hw => h2other w
          (fun h => hcys (h ▸ hw)) (fun h => hxys (h ▸ hw))
          (fun h => hyys (h ▸ hw))
      obtain ⟨ihmap, ihoff⟩ := ih ys c s2 hlen' hnd'
      set sMid : State := applySeq (coreGates xs ys c) s2 with hsMid
      have hMy : sMid y = Bool.xor (s y) (s c) := (ihoff y hyys).trans h2y
      have hMc : sMid c = maj (s x) (s y) (s c) := (ihoff c hcys).trans h2c
      have hMx : sMid x =
          if Bool.xor (s y) (s c) = true then s c else s x :=
        (ihoff x hxys).trans h2x
      have h4 : ∀ w, applyGate (Gate.cswap y c x) sMid w =
          if w = c then s c else if w = x then s x else sMid w := by
        intro w
        simp only [applyGate_cswap_apply, hMy]
        by_cases hwc : w = c
        · subst hwc
          simp only [if_pos rfl, if_neg hcx]
          rw [hMc, hMx]
          cases hsx : s x <;> cases hsy : s y <;> cases hsc : s w <;>
            simp [maj]
        · by_cases hwx : w = x
          · subst hwx
            simp only [if_neg hwc, if_pos rfl]
            rw [hMc, hMx]
            cases hsx : s w <;> cases hsy : s y <;> cases hsc : s c <;>
              simp [maj, hwc]
          · simp [hwc, hwx]
      have h4c : applyGate (Gate.cswap y c x) sMid c = s c := by
        rw [h4 c]; simp
      have h4x : applyGate (Gate.cswap y c x) sMid x = s x := by
        rw [h4 x]
        rw [if_neg (fun h : x = c => hcx h.symm), if_pos rfl]
      have h4y : applyGate (Gate.cswap y c x) sMid y
          = Bool.xor (s y) (s c) := by
        rw [h4 y]
        rw [if_neg (Ne.symm hcy), if_neg (Ne.symm hxy), hMy]
      have h5 : ∀ v, applySeq [Gate.cswap y c x, Gate.cnot x y] sMid v =
          if v = y then Bool.xor (s x) (Bool.xor (s y) (s c))
          else if v = c then s c else if v = x then s x else sMid v := by
        intro v
        rw [applySeq_cons, applySeq_cons, applySeq_nil]
        rw [applyGate_cnot_apply, h4y, h4x]
        by_cases hvy : v = y
        · rw [if_pos hvy, if_pos hvy, Bool.xor_comm]
        · rw [if_neg hvy, if_neg hvy, h4 v]
      constructor
      · rw [List.map_cons, List.map_cons, List.map_cons,
          show addBits (s x :: List.map s xs) (s y :: List.map s ys) (s c)
            = Bool.xor (s x) (Bool.xor (s y) (s c))
              :: addBits (List.map s xs) (List.map s ys)
                  (maj (s x) (s y) (s c)) from rfl,
          List.cons_eq_cons]
        refine ⟨?_, ?_⟩
        · rw [h5 y, if_pos rfl]
        · rw [← hmapxs, ← hmapys, ← h2c, ← ihmap]
          refine List.map_congr_left fun v hv => ?_
          rw [h5 v, if_neg (fun h : v = y => hyys (h ▸ hv)),
            if_neg (fun h : v = c => hcys (h ▸ hv)),
            if_neg (fun h : v = x => hxys (h ▸ hv))]
      · intro w hw
        simp only [List.mem_cons, not_or] at hw
        obtain ⟨hwy, hwys⟩ := hw
        rw [h5 w, if_neg hwy]
        by_cases hwc : w = c
        · rw [if_pos hwc, hwc]
        · by_cases hwx : w = x
          · rw [if_neg hwc, if_pos hwx, hwx]
          · rw [if_neg hwc, if_neg hwx, ihoff w hwys,
              h2other w hwc hwx hwy]

/-- The last element of a nonempty list does not depend on the default. -/
theorem getLastD_of_ne_nil {l : List Nat} (h : l ≠ []) (d1 d2 : Nat) :
    l.getLastD d1 = l.getLastD d2 := by
  cases l with
  | nil => exact absurd rfl h
  | cons a t => rfl

theorem getD_dropLast (l : List Nat) (i : Nat) (h : i < l.length - 1) :
    l.dropLast.getD i 0 = l.getD i 0 := by
  have h1 : i < l.dropLast.length := by
    simp only [List.length_dropLast]; omega
  have h2 : i < l.length := by omega
  rw [List.getD_eq_getElem _ _ h1, List.getD_eq_getElem _ _ h2,
    List.getElem_dropLast]

/-- The nested recursion `coreGates` flattens to exactly the forward loop,
high-bit toggle and backward loop emitted by the source. -/
theorem coreGates_eq_loops : ∀ (xs ys : List Nat) (c : Nat),
    xs.length + 1 = ys.length →
    coreGates xs ys c =
      (List.range xs.length).flatMap (fun i =>
        [Gate.cnot c (ys.getD i 0),
         Gate.cswap (ys.getD i 0) c (xs.getD i 0)])
      ++ ([Gate.cnot c (ys.getLastD 0)]
      ++ ((List.range xs.length).reverse).flatMap (fun i =>
        [Gate.cswap (ys.getD i 0) c (xs.getD i 0),
         Gate.cnot (xs.getD i 0) (ys.getD i 0)])) := by
  intro xs
  induction xs with
  | nil =>
    intro ys c hlen
    match ys, hlen with
    | [y], _ => rfl
  | cons x xs ih =>
    intro ys c hlen
    cases ys with
    | nil => simp at hlen
    | cons y ys =>
      have hlen' : xs.length + 1 = ys.length := by simpa using hlen
      have hysne : ys ≠ [] := by
        intro h
        rw [h] at hlen'
        simp at hlen'
      have hL : coreGates (x :: xs) (y :: ys) c
          = Gate.cnot c y :: Gate.cswap y c x ::
              (coreGates xs ys c ++ [Gate.cswap y c x, Gate.cnot x y]) := rfl
      rw [hL, ih ys c hlen']
      simp only [List.length_cons, List.range_succ_eq_map,
        List.flatMap_cons, List.flatMap_map, List.getD_cons_zero,
        List.getD_cons_succ, List.reverse_cons, ← List.map_reverse,
        List.flatMap_append, List.getLastD_cons,
        getLastD_of_ne_nil hysne y 0]
      simp [List.append_assoc]

/-- The full emission decomposes into phase 1, the middle phases, and
phase 5. -/
theorem do_addition_with_same_size_and_no_controls_eq
    (xs ys : List Nat) (hlen : xs.length = ys.length) (hne : ys ≠ []) :
    do_addition_with_same_size_and_no_controls xs ys =
      Gate.mcnot [xs.getLastD 0] ((xs.dropLast ++ ys).reverse)
        :: (coreGates xs.dropLast ys (xs.getLastD 0)
          ++ [Gate.mcnot [xs.getLastD 0] (xs.dropLast ++ ys)]) := by
  have hys : ys.length ≠ 0 := by
    intro h
    exact hne (List.eq_nil_of_length_eq_zero h)
  have hdl : xs.dropLast.length + 1 = ys.length := by
    simp only [List.length_dropLast]
    omega
  rw [coreGates_eq_loops xs.dropLast ys (xs.getLastD 0) hdl]
  unfold do_addition_with_same_size_and_no_controls
  rw [if_neg hys]
  dsimp only
  have hxd : ∀ i, i < ys.length - 1 → xs.getD i 0 = xs.dropLast.getD i 0 :=
    fun i hi => (getD_dropLast xs i (by omega)).symm
  have hdlL : xs.dropLast.length = ys.length - 1 := by omega
  rw [hdlL]
  simp only [List.cons_append, List.singleton_append, List.append_assoc,
    List.nil_append]
  have hfwd : ((List.range (ys.length - 1)).flatMap fun i =>
      [Gate.cnot (xs.getLastD 0) (ys.getD i 0),
       Gate.cswap (ys.getD i 0) (xs.getLastD 0) (xs.getD i 0)])
      = ((List.range (ys.length - 1)).flatMap fun i =>
      [Gate.cnot (xs.getLastD 0) (ys.getD i 0),
       Gate.cswap (ys.getD i 0) (xs.getLastD 0) (xs.dropLast.getD i 0)]) := by
    refine List.flatMap_congr ?_
    intro i hi
    rw [List.mem_range] at hi
    rw [hxd i hi]
  have hbwd : (((List.range (ys.length - 1)).reverse).flatMap fun i =>
      [Gate.cswap (ys.getD i 0) (xs.getLastD 0) (xs.getD i 0),
       Gate.cnot (xs.getD i 0) (ys.getD i 0)])
      = (((List.range (ys.length - 1)).reverse).flatMap fun i =>
      [Gate.cswap (ys.getD i 0) (xs.getLastD 0) (xs.dropLast.getD i 0),
       Gate.cnot (xs.dropLast.getD i 0) (ys.getD i 0)]) := by
    refine List.flatMap_congr ?_
    intro i hi
    rw [List.mem_reverse, List.mem_range] at hi
    rw [hxd i hi]
  rw [hfwd, hbwd]

/-! ## Arithmetic of little-endian bit lists -/

theorem bitsToNat_lt : ∀ (l : List Bool), bitsToNat l < 2 ^ l.length := by
  intro l
  induction l with
  | nil => simp [bitsToNat]
  | cons b bs ih =>
    simp only [bitsToNat, List.length_cons, pow_succ]
    cases b <;> simp <;> omega

theorem addBits_length : ∀ (as bs : List Bool) (c : Bool),
    (addBits as bs c).length = bs.length := by
  intro as bs
  induction bs generalizing as with
  | nil => intro c; cases as <;> rfl
  | cons b bs ih =>
    intro c
    cases as with
    | nil => simp only [addBits, List.length_cons, ih]
    | cons a as => simp only [addBits, List.length_cons, ih]

theorem cond_add_cond_xor (b c : Bool) :
    cond b (1:ℕ) 0 + cond c 1 0
      = cond (Bool.xor b c) 1 0 + 2 * cond (b && c) 1 0 := by
  cases b <;> cases c <;> rfl

theorem cond_add_three (u v t : Bool) :
    cond u (1:ℕ) 0 + cond v 1 0 + cond t 1 0
      = cond (Bool.xor u (Bool.xor v t)) 1 0 + 2 * cond (maj u v t) 1 0 := by
  cases u <;> cases v <;> cases t <;> rfl

theorem mod_double (e X k : Nat) (he : e < 2) :
    (e + 2 * X) % 2 ^ (k + 1) = e + 2 * (X % 2 ^ k) := by
  have h1 : (2:ℕ) ^ (k + 1) = 2 * 2 ^ k := by
    rw [Nat.pow_succ, Nat.mul_comm]
  have h2 : (2 * X) % (2 * 2 ^ k) = 2 * (X % 2 ^ k) :=
    Nat.mul_mod_mul_left 2 X (2 ^ k)
  have h3 : X % 2 ^ k < 2 ^ k := Nat.mod_lt _ (Nat.two_pow_pos k)
  have hp : (0:ℕ) < 2 ^ k := Nat.two_pow_pos k
  rw [h1, Nat.add_mod, h2, Nat.mod_eq_of_lt (show e < 2 * 2 ^ k by omega),
    Nat.mod_eq_of_lt (show e + 2 * (X % 2 ^ k) < 2 * 2 ^ k by omega)]

/-- Value of the ripple sum: addition modulo `2 ^ bs.length`. -/
theorem bitsToNat_addBits : ∀ (bs as : List Bool) (c : Bool),
    as.length ≤ bs.length →
    bitsToNat (addBits as bs c)
      = (bitsToNat as + bitsToNat bs + cond c 1 0) % 2 ^ bs.length := by
  intro bs
  induction bs with
  | nil =>
    intro as c hlen
    have : as = [] := List.eq_nil_of_length_eq_zero (by simpa using hlen)
    subst this
    simp [addBits, bitsToNat, Nat.mod_one]
  | cons b bs ih =>
    intro as c hlen
    cases as with
    | nil =>
      show bitsToNat (Bool.xor b c :: addBits [] bs (b && c)) = _
      rw [show bitsToNat (Bool.xor b c :: addBits [] bs (b && c))
          = cond (Bool.xor b c) 1 0 + 2 * bitsToNat (addBits [] bs (b && c))
        from rfl]
      rw [ih [] (b && c) (by simp)]
      have harr : bitsToNat ([] : List Bool)
            + bitsToNat (b :: bs) + cond c 1 0
          = cond (Bool.xor b c) 1 0
            + 2 * (bitsToNat ([] : List Bool) + bitsToNat bs
              + cond (b && c) 1 0) := by
        have h := cond_add_cond_xor b c
        simp only [bitsToNat]
        omega
      rw [harr, List.length_cons,
        mod_double _ _ _ (by cases b <;> cases c <;> simp)]
    | cons a as =>
      show bitsToNat (Bool.xor a (Bool.xor b c)
          :: addBits as bs (maj a b c)) = _
      rw [show bitsToNat (Bool.xor a (Bool.xor b c)
            :: addBits as bs (maj a b c))
          = cond (Bool.xor a (Bool.xor b c)) 1 0
            + 2 * bitsToNat (addBits as bs (maj a b c)) from rfl]
      rw [ih as (maj a b c) (by simpa using hlen)]
      have harr : bitsToNat (a :: as) + bitsToNat (b :: bs) + cond c 1 0
          = cond (Bool.xor a (Bool.xor b c)) 1 0
            + 2 * (bitsToNat as + bitsToNat bs + cond (maj a b c) 1 0) := by
        have h := cond_add_three a b c
        simp only [bitsToNat]
        omega
      rw [harr, List.length_cons,
        mod_double _ _ _ (by cases a <;> cases b <;> cases c <;> simp)]

/-- Complement identity: flipping every bit gives the ones' complement. -/
theorem bitsToNat_map_not : ∀ (l : List Bool),
    bitsToNat (l.map (fun b => !b)) + bitsToNat l + 1 = 2 ^ l.length := by
  intro l
  induction l with
  | nil => rfl
  | cons b bs ih =>
    simp only [List.map_cons, bitsToNat, List.length_cons, pow_succ]
    cases b <;> simp <;> omega

theorem bitsToNat_append_bit (l : List Bool) (b : Bool) :
    bitsToNat (l ++ [b]) = bitsToNat l + 2 ^ l.length * cond b 1 0 := by
  induction l with
  | nil => simp [bitsToNat]
  | cons a as ih =>
    rw [List.cons_append,
      show bitsToNat (a :: (as ++ [b]))
        = cond a 1 0 + 2 * bitsToNat (as ++ [b]) from rfl,
      ih,
      show bitsToNat (a :: as) = cond a 1 0 + 2 * bitsToNat as from rfl,
      List.length_cons, pow_succ]
    ring

/-- The two dirty-MSB correction phases seen numerically: conjugating the
ripple sum by the conditional complement turns a dirty carry value `g`
into the contribution `g * 2 ^ as.length` of the borrowed top input bit. -/
theorem masked_add (as bs : List Bool) (g : Bool)
    (hlen : as.length + 1 = bs.length) :
    bitsToNat ((addBits (as.map (fun b => Bool.xor b g))
        (bs.map (fun b => Bool.xor b g)) g).map (fun b => Bool.xor b g))
      = (bitsToNat (as ++ [g]) + bitsToNat bs) % 2 ^ bs.length := by
  cases g with
  | false =>
    have hid : ∀ l : List Bool, l.map (fun b => Bool.xor b false) = l := by
      intro l; simp
    rw [hid, hid, hid, bitsToNat_addBits bs as false (by omega),
      bitsToNat_append_bit]
    simp
  | true =>
    have hnot : ∀ l : List Bool,
        l.map (fun b => Bool.xor b true) = l.map (fun b => !b) := by
      intro l; simp
    rw [hnot, hnot, hnot]
    set m := as.length with hm
    set n := bs.length with hn
    have hA := bitsToNat_map_not as
    have hB := bitsToNat_map_not bs
    have hP : bitsToNat (addBits (as.map (fun b => !b))
          (bs.map (fun b => !b)) true)
        = (bitsToNat (as.map (fun b => !b))
            + bitsToNat (bs.map (fun b => !b)) + 1) % 2 ^ n := by
      rw [bitsToNat_addBits _ _ true (by simp; omega)]
      simp [hn]
    have hLlen : (addBits (as.map (fun b => !b))
        (bs.map (fun b => !b)) true).length = n := by
      rw [addBits_length]; simp [hn]
    have hC := bitsToNat_map_not
      (addBits (as.map (fun b => !b)) (bs.map (fun b => !b)) true)
    rw [hLlen] at hC
    set NA := bitsToNat (as.map (fun b => !b)) with hNA
    set NB := bitsToNat (bs.map (fun b => !b)) with hNB
    set P := bitsToNat (addBits (as.map (fun b => !b))
      (bs.map (fun b => !b)) true) with hPdef
    set L := bitsToNat ((addBits (as.map (fun b => !b))
      (bs.map (fun b => !b)) true).map (fun b => !b)) with hL
    rw [bitsToNat_append_bit]
    have hpow : (2:ℕ) ^ n = 2 ^ m + 2 ^ m := by
      rw [← hlen, pow_succ]; omega
    -- pass to the ring `ZMod (2 ^ n)`
    have hq1 : 2 ^ n * ((NA + NB + 1) / 2 ^ n) + (NA + NB + 1) % 2 ^ n
        = NA + NB + 1 := Nat.div_add_mod _ _
    have hz0 : ((2:ZMod (2 ^ n)))^n = 0 := by
      have h := ZMod.natCast_self (2 ^ n)
      push_cast at h
      exact h
    have hz1 : ((L : ZMod (2 ^ n)) + P + 1 = (2:ZMod (2 ^ n))^n) := by
      have := congrArg (fun x : ℕ => (x : ZMod (2 ^ n))) hC
      push_cast at this
      exact this
    have hz2 : ((NA : ZMod (2 ^ n)) + NB + 1
        = (2:ZMod (2 ^ n))^n * (((NA + NB + 1) / 2 ^ n : ℕ) : ZMod (2 ^ n))
          + (((NA + NB + 1) % 2 ^ n : ℕ) : ZMod (2 ^ n))) := by
      have := congrArg (fun x : ℕ => (x : ZMod (2 ^ n))) hq1
      push_cast at this
      exact this.symm
    have hz3 : ((NA : ZMod (2 ^ n)) + ((bitsToNat as : ℕ) : ZMod (2 ^ n)) + 1
        = (2:ZMod (2 ^ n))^m) := by
      have := congrArg (fun x : ℕ => (x : ZMod (2 ^ n))) hA
      push_cast at this
      exact this
    have hz4 : ((NB : ZMod (2 ^ n)) + ((bitsToNat bs : ℕ) : ZMod (2 ^ n)) + 1
        = (2:ZMod (2 ^ n))^n) := by
      have := congrArg (fun x : ℕ => (x : ZMod (2 ^ n))) hB
      push_cast at this
      exact this
    have hz5 : ((2:ZMod (2 ^ n))^n = (2:ZMod (2 ^ n))^m + (2:ZMod (2 ^ n))^m) := by
      have := congrArg (fun x : ℕ => (x : ZMod (2 ^ n))) hpow
      push_cast at this
      exact this
    have hzP : ((P : ZMod (2 ^ n))
        = (((NA + NB + 1) % 2 ^ n : ℕ) : ZMod (2 ^ n))) :=
      congrArg (fun x : ℕ => (x : ZMod (2 ^ n))) hP
    have hgoalz : ((L : ZMod (2 ^ n))
        = ((bitsToNat as + 2 ^ m * 1 + bitsToNat bs : ℕ) : ZMod (2 ^ n))) := by
      push_cast
      linear_combination hz1 + hz2 - hz3 - hz4 - hzP + hz5
        + ((((NA + NB + 1) / 2 ^ n : ℕ) : ZMod (2 ^ n)) - 1) * hz0
    have hmodeq : L % 2 ^ n = (bitsToNat as + 2 ^ m * 1 + bitsToNat bs) % 2 ^ n :=
      (ZMod.natCast_eq_natCast_iff _ _ _).mp hgoalz
    have hLlt : L < 2 ^ n := by omega
    rw [← Nat.mod_eq_of_lt hLlt]
    convert hmodeq using 2

theorem dropLast_append_getLastD {l : List Nat} (h : l ≠ []) :
    l.dropLast ++ [l.getLastD 0] = l := by
  have h2 : l.getLastD 0 = l.getLast h := by
    rw [List.getLastD_eq_getLast?, List.getLast?_eq_getLast l h]
    rfl
  rw [h2, List.dropLast_append_getLast]

/-- Master specification of the equal-size uncontrolled synthesizer: run
on any state over pairwise distinct wires, the target register ends up
holding the modular sum of the two register values and every other wire
(the whole input register included) is unchanged. -/
theorem addSame_spec (xs ys : List Nat) (s : State)
    (hlen : xs.length = ys.length) (hnd : (xs ++ ys).Nodup) :
    bitsToNat (ys.map
        (applySeq (do_addition_with_same_size_and_no_controls xs ys) s))
      = (bitsToNat (xs.map s) + bitsToNat (ys.map s)) % 2 ^ ys.length
    ∧ ∀ w, w ∉ ys →
      applySeq (do_addition_with_same_size_and_no_controls xs ys) s w = s w := by
  by_cases hys : ys = []
  · subst hys
    have hgates : do_addition_with_same_size_and_no_controls xs [] = [] := rfl
    rw [hgates]
    refine ⟨?_, fun w _ => rfl⟩
    simp [bitsToNat, Nat.mod_one]
  · have hxs : xs ≠ [] := by
      intro h
      rw [h] at hlen
      exact hys (List.eq_nil_of_length_eq_zero hlen.symm)
    set cb := xs.getLastD 0 with hcb
    have hx_split : xs.dropLast ++ [cb] = xs := dropLast_append_getLastD hxs
    have hnd_env : (cb :: (xs.dropLast ++ ys)).Nodup := by
      have h1 : xs ++ ys = xs.dropLast ++ cb :: ys := by
        conv_lhs => rw [← hx_split]
        rw [List.append_assoc, List.singleton_append]
      rw [h1] at hnd
      exact (List.perm_middle.nodup_iff).mp hnd
    have hcb_notin : cb ∉ xs.dropLast ++ ys :=
      (List.nodup_cons.mp hnd_env).1
    have hdl_len : xs.dropLast.length + 1 = ys.length := by
      have := congrArg List.length hx_split
      simp only [List.length_append, List.length_singleton] at this
      omega
    have hmask : ∀ (ts : List Nat) (t : State), t cb = s cb → ∀ w,
        applyGate (Gate.mcnot [cb] ts) t w =
          if w ∈ ts then Bool.xor (t w) (s cb) else t w := by
      intro ts t ht w
      rw [applyGate_mcnot_apply]
      simp only [List.all_cons, List.all_nil, Bool.and_true, ht]
      by_cases hm : w ∈ ts
      · cases hsc : s cb <;> simp [hm, hsc]
      · simp [hm]
    rw [do_addition_with_same_size_and_no_controls_eq xs ys hlen hys,
      applySeq_cons, applySeq_append, applySeq_cons, applySeq_nil]
    set s1 := applyGate (Gate.mcnot [cb] ((xs.dropLast ++ ys).reverse)) s
      with hs1
    have h1 : ∀ w, s1 w =
        if w ∈ xs.dropLast ++ ys then Bool.xor (s w) (s cb) else s w := by
      intro w
      rw [hs1, hmask _ s rfl w]
      simp only [List.mem_reverse]
    have h1cb : s1 cb = s cb := by
      rw [h1, if_neg hcb_notin]
    have h1xs : xs.dropLast.map s1
        = (xs.dropLast.map s).map (fun b => Bool.xor b (s cb)) := by
      rw [List.map_map]
      refine List.map_congr_left fun w hw => ?_
      rw [h1, if_pos (List.mem_append.mpr (Or.inl hw))]
      rfl
    have h1ys : ys.map s1 = (ys.map s).map (fun b => Bool.xor b (s cb)) := by
      rw [List.map_map]
      refine List.map_congr_left fun w hw => ?_
      rw [h1, if_pos (List.mem_append.mpr (Or.inr hw))]
      rfl
    obtain ⟨hcore_map, hcore_off⟩ :=
      coreGates_spec xs.dropLast ys cb s1 hdl_len hnd_env
    set s2 := applySeq (coreGates xs.dropLast ys cb) s1 with hs2
    have h2cb : s2 cb = s cb := by
      rw [hcore_off cb (fun h =>
        hcb_notin (List.mem_append.mpr (Or.inr h))), h1cb]
    have h3 : ∀ w, applyGate (Gate.mcnot [cb] (xs.dropLast ++ ys)) s2 w =
        if w ∈ xs.dropLast ++ ys then Bool.xor (s2 w) (s cb) else s2 w :=
      hmask _ s2 h2cb
    constructor
    · have hmap3 : ys.map (applyGate (Gate.mcnot [cb] (xs.dropLast ++ ys)) s2)
          = (ys.map s2).map (fun b => Bool.xor b (s cb)) := by
        rw [List.map_map]
        refine List.map_congr_left fun w hw => ?_
        rw [h3, if_pos (List.mem_append.mpr (Or.inr hw))]
        rfl
      rw [hmap3, hcore_map, h1cb, h1xs, h1ys]
      have hma := masked_add (xs.dropLast.map s) (ys.map s) (s cb)
        (by simp only [List.length_map]; omega)
      rw [hma]
      have hxmap : xs.dropLast.map s ++ [s cb] = xs.map s := by
        rw [show ([s cb] : List Bool) = [cb].map s from rfl,
          ← List.map_append, hx_split]
      rw [hxmap]
      simp
    · intro w hw
      rw [h3]
      by_cases hm : w ∈ xs.dropLast ++ ys
      · have hwx : w ∈ xs.dropLast := by
          rcases List.mem_append.mp hm with h | h
          · exact h
          · exact absurd h hw
        rw [if_pos hm, hcore_off w hw, h1,
          if_pos (List.mem_append.mpr (Or.inl hwx))]
        cases hsw : s w <;> cases hsc : s cb <;> simp [hsw, hsc]
      · rw [if_neg hm, hcore_off w hw, h1, if_neg hm]

/-! ## Self-inverseness of the emitted primitives -/

/-- Well-formedness of a gate invocation: control wires are distinct from
target wires (true of every command the synthesizer emits, since a quantum
command may not repeat a qubit). -/
def Gate.wf : Gate → Prop
  | .cnot c t => c ≠ t
  | .cswap c a b => c ≠ a ∧ c ≠ b ∧ a ≠ b
  | .mcnot cs ts => ∀ c ∈ cs, c ∉ ts
  | .notall _ => True

theorem all_congr_mem (l : List Nat) (f g : Nat → Bool)
    (h : ∀ x ∈ l, f x = g x) : l.all f = l.all g := by
  cases hf : l.all f with
  | true =>
    symm
    rw [List.all_eq_true] at hf ⊢
    intro x hx
    rw [← h x hx]
    exact hf x hx
  | false =>
    symm
    rw [List.all_eq_false] at hf ⊢
    obtain ⟨x, hx, hfx⟩ := hf
    refine ⟨x, hx, fun hc => hfx ?_⟩
    rw [h x hx]
    exact hc

theorem Gate.inverse_eq_self (g : Gate) : g.inverse = g := by
  cases g <;> rfl

theorem applyGate_involution (g : Gate) (hg : g.wf) (s : State) :
    applyGate g (applyGate g s) = s := by
  funext w
  cases g with
  | cnot c t =>
    have hct : c ≠ t := hg
    rw [applyGate_cnot_apply,
      show applyGate (Gate.cnot c t) s t = Bool.xor (s t) (s c) from by
        rw [applyGate_cnot_apply, if_pos rfl],
      show applyGate (Gate.cnot c t) s c = s c from by
        rw [applyGate_cnot_apply, if_neg hct]]
    by_cases hwt : w = t
    · rw [if_pos hwt, hwt]
      cases s t <;> cases s c <;> rfl
    · rw [if_neg hwt, applyGate_cnot_apply, if_neg hwt]
  | cswap c a b =>
    obtain ⟨hca, hcb, hab⟩ := hg
    have hctl : applyGate (Gate.cswap c a b) s c = s c := by
      rw [applyGate_cswap_apply, if_neg hca, if_neg hcb]
      split <;> rfl
    rw [applyGate_cswap_apply, hctl]
    by_cases hsc : s c = true
    · rw [if_pos hsc, applyGate_cswap_apply, applyGate_cswap_apply,
        applyGate_cswap_apply, if_pos hsc, if_pos hsc, if_pos hsc,
        if_neg (Ne.symm hab), if_pos rfl, if_pos rfl]
      by_cases hwa : w = a
      · rw [if_pos hwa, hwa]
      · rw [if_neg hwa]
        by_cases hwb : w = b
        · rw [if_pos hwb, hwb]
        · rw [if_neg hwb, if_neg hwa, if_neg hwb]
    · rw [if_neg hsc, applyGate_cswap_apply, if_neg hsc]
  | mcnot cs ts =>
    have hctl : ∀ x ∈ cs, applyGate (Gate.mcnot cs ts) s x = s x := by
      intro x hx
      rw [applyGate_mcnot_apply,
        if_neg (fun hcon => (hg x hx) hcon.2)]
    have hall : cs.all (applyGate (Gate.mcnot cs ts) s) = cs.all s :=
      all_congr_mem cs _ _ hctl
    rw [applyGate_mcnot_apply, applyGate_mcnot_apply, hall]
    by_cases hca : cs.all s = true
    · by_cases hwt : w ∈ ts
      · rw [if_pos ⟨hca, hwt⟩, if_pos ⟨hca, hwt⟩, Bool.not_not]
      · rw [if_neg (fun hcon => hwt hcon.2),
          if_neg (fun hcon => hwt hcon.2)]
    · rw [if_neg (fun hcon => hca hcon.1), if_neg (fun hcon => hca hcon.1)]
  | notall ts =>
    rw [applyGate_notall_apply, applyGate_notall_apply]
    by_cases hwt : w ∈ ts <;> simp [hwt]

/-- Running a block of self-inverse primitives and then its `Dagger`
returns every wire to its original value. -/
theorem applySeq_dagger_cancel : ∀ (gs : List Gate),
    (∀ g ∈ gs, g.wf) → ∀ s, applySeq (gs ++ dagger gs) s = s := by
  intro gs
  induction gs with
  | nil => intro _ s; rfl
  | cons g gs ih =>
    intro hwf s
    have hdag : dagger (g :: gs) = dagger gs ++ [Gate.inverse g] := by
      unfold dagger
      rw [List.map_cons, List.reverse_cons]
    rw [hdag, List.cons_append, applySeq_cons, ← List.append_assoc,
      applySeq_append, applySeq_cons, applySeq_nil,
      ih (fun h hh => hwf h (by simp [hh])) (applyGate g s),
      Gate.inverse_eq_self,
      applyGate_involution g (hwf g (by simp)) s]

/-- Every gate of the middle phases is well-formed. -/
theorem coreGates_wf : ∀ (xs ys : List Nat) (c : Nat),
    (c :: (xs ++ ys)).Nodup → ∀ g ∈ coreGates xs ys c, g.wf := by
  intro xs
  induction xs with
  | nil =>
    intro ys c hnd g hgmem
    cases ys with
    | nil => simp [coreGates] at hgmem
    | cons y ys =>
      cases ys with
      | cons y2 ys2 => simp [coreGates] at hgmem
      | nil =>
        simp only [coreGates, List.mem_singleton] at hgmem
        subst hgmem
        have : c ∉ ([] ++ [y] : List Nat) := (List.nodup_cons.mp hnd).1
        simp only [List.nil_append, List.mem_singleton] at this
        exact this
  | cons x xs ih =>
    intro ys c hnd g hgmem
    cases ys with
    | nil => simp [coreGates] at hgmem
    | cons y ys =>
      obtain ⟨hnd', hcx, hcy, hcxs, hcys, hxy, hxxs, hxys, hyxs, hyys⟩ :=
        nodup_unpack hnd
      rw [show coreGates (x :: xs) (y :: ys) c
          = Gate.cnot c y :: Gate.cswap y c x ::
              (coreGates xs ys c ++ [Gate.cswap y c x, Gate.cnot x y])
        from rfl] at hgmem
      simp only [List.mem_cons, List.mem_append, List.mem_singleton]
        at hgmem
      rcases hgmem with h | h | h | h | h | h
      · rw [h]; exact hcy
      · rw [h]; exact ⟨Ne.symm hcy, Ne.symm hxy, hcx⟩
      · exact ih ys c hnd' g h
      · rw [h]; exact ⟨Ne.symm hcy, Ne.symm hxy, hcx⟩
      · rw [h]; exact hxy
      · exact absurd h (List.not_mem_nil g)

/-- Every gate emitted by the equal-size synthesizer is well-formed. -/
theorem addSame_wf (xs ys : List Nat) (hlen : xs.length = ys.length)
    (hnd : (xs ++ ys).Nodup) :
    ∀ g ∈ do_addition_with_same_size_and_no_controls xs ys, g.wf := by
  by_cases hys : ys = []
  · subst hys
    intro g hg
    simp [do_addition_with_same_size_and_no_controls] at hg
  · have hxs : xs ≠ [] := by
      intro h
      rw [h] at hlen
      exact hys (List.eq_nil_of_length_eq_zero hlen.symm)
    have hx_split : xs.dropLast ++ [xs.getLastD 0] = xs :=
      dropLast_append_getLastD hxs
    have hnd_env : (xs.getLastD 0 :: (xs.dropLast ++ ys)).Nodup := by
      have h1 : xs ++ ys = xs.dropLast ++ xs.getLastD 0 :: ys := by
        conv_lhs => rw [← hx_split]
        rw [List.append_assoc, List.singleton_append]
      rw [h1] at hnd
      exact (List.perm_middle.nodup_iff).mp hnd
    have hcb_notin : xs.getLastD 0 ∉ xs.dropLast ++ ys :=
      (List.nodup_cons.mp hnd_env).1
    intro g hg
    rw [do_addition_with_same_size_and_no_controls_eq xs ys hlen hys]
      at hg
    simp only [List.mem_cons, List.mem_append, List.mem_singleton] at hg
    rcases hg with h | h | h | h
    · rw [h]
      intro c hc
      simp only [List.mem_singleton] at hc
      subst hc
      rw [List.mem_reverse]
      exact hcb_notin
    · exact coreGates_wf xs.dropLast ys (xs.getLastD 0) hnd_env g h
    · rw [h]
      intro c hc
      simp only [List.mem_singleton] at hc
      subst hc
      exact hcb_notin
    · exact absurd h (List.not_mem_nil g)

/-! ## Gate counts, truncation arithmetic, and the wrapper models -/

theorem coreGates_length : ∀ (xs ys : List Nat) (c : Nat),
    xs.length + 1 = ys.length →
    (coreGates xs ys c).length = 4 * xs.length + 1 := by
  intro xs
  induction xs with
  | nil =>
    intro ys c hlen
    match ys, hlen with
    | [y], _ => rfl
  | cons x xs ih =>
    intro ys c hlen
    cases ys with
    | nil => simp at hlen
    | cons y ys =>
      have hlen' : xs.length + 1 = ys.length := by simpa using hlen
      rw [show coreGates (x :: xs) (y :: ys) c
          = Gate.cnot c y :: Gate.cswap y c x ::
              (coreGates xs ys c ++ [Gate.cswap y c x, Gate.cnot x y])
        from rfl]
      simp only [List.length_cons, List.length_append, ih ys c hlen']
      simp
      omega

theorem addSame_length (xs ys : List Nat) (hlen : xs.length = ys.length) :
    (do_addition_with_same_size_and_no_controls xs ys).length
      = if ys.length = 0 then 0 else 4 * ys.length - 1 := by
  by_cases hys : ys = []
  · subst hys
    rfl
  · have hys0 : ys.length ≠ 0 := fun h => hys (List.eq_nil_of_length_eq_zero h)
    rw [do_addition_with_same_size_and_no_controls_eq xs ys hlen hys,
      if_neg hys0]
    have hdl : xs.dropLast.length + 1 = ys.length := by
      simp only [List.length_dropLast]
      omega
    have hstep : (Gate.mcnot [xs.getLastD 0] ((xs.dropLast ++ ys).reverse)
        :: (coreGates xs.dropLast ys (xs.getLastD 0)
          ++ [Gate.mcnot [xs.getLastD 0] (xs.dropLast ++ ys)])).length
        = (coreGates xs.dropLast ys (xs.getLastD 0)).length + 2 := by
      simp
    rw [hstep, coreGates_length xs.dropLast ys (xs.getLastD 0) hdl]
    omega

/-- Value of a truncated register: the low bits. -/
theorem bitsToNat_take : ∀ (l : List Bool) (k : Nat),
    bitsToNat (l.take k) = bitsToNat l % 2 ^ k := by
  intro l
  induction l with
  | nil =>
    intro k
    simp [bitsToNat]
  | cons b bs ih =>
    intro k
    cases k with
    | zero => simp [bitsToNat, Nat.mod_one]
    | succ k =>
      rw [List.take_succ_cons,
        show bitsToNat (b :: bs.take k)
          = cond b 1 0 + 2 * bitsToNat (bs.take k) from rfl,
        ih k,
        show bitsToNat (b :: bs) = cond b 1 0 + 2 * bitsToNat bs from rfl,
        mod_double _ _ _ (by cases b <;> simp)]

theorem bitsToNat_inj : ∀ (l1 l2 : List Bool),
    l1.length = l2.length → bitsToNat l1 = bitsToNat l2 → l1 = l2 := by
  intro l1
  induction l1 with
  | nil =>
    intro l2 hlen _
    exact (List.eq_nil_of_length_eq_zero (by simpa using hlen.symm)).symm
  | cons b bs ih =>
    intro l2 hlen hval
    cases l2 with
    | nil => simp at hlen
    | cons c cs =>
      rw [show bitsToNat (b :: bs) = cond b 1 0 + 2 * bitsToNat bs from rfl,
        show bitsToNat (c :: cs) = cond c 1 0 + 2 * bitsToNat cs from rfl]
        at hval
      have hbc : b = c ∧ bitsToNat bs = bitsToNat cs := by
        cases b <;> cases c <;> simp at hval ⊢ <;> omega
      rw [hbc.1, ih cs (by simpa using hlen) hbc.2]

theorem map_eq_of_mem {f g : Nat → Bool} : ∀ (l : List Nat),
    l.map f = l.map g → ∀ w ∈ l, f w = g w := by
  intro l
  induction l with
  | nil => intro _ w hw; exact absurd hw (List.not_mem_nil w)
  | cons a t ih =>
    intro h w hw
    rw [List.map_cons, List.map_cons, List.cons_eq_cons] at h
    rcases List.mem_cons.mp hw with hwa | hwt
    · rw [hwa]; exact h.1
    · exact ih h.2 w hwt

/-- Arithmetic core of the cancellation in the double-add-invert trick
when some control is off: add, complement, add, complement is the
identity on the expanded register value. -/
theorem double_pass_cancel (A E M : Nat) (hM : 0 < M) (hA : A < M)
    (hE : E < M) :
    M - 1 - ((A + (M - 1 - ((A + E) % M))) % M) = E := by
  have h1 := Nat.div_add_mod (A + E) M
  have h1b : (A + E) / M ≤ 1 := by
    by_contra hcon
    push_neg at hcon
    have := (Nat.le_div_iff_mul_le hM).mp hcon
    omega
  have h1lt : (A + E) % M < M := Nat.mod_lt _ hM
  have h2 := Nat.div_add_mod (A + (M - 1 - ((A + E) % M))) M
  have h2b : (A + (M - 1 - ((A + E) % M))) / M ≤ 1 := by
    by_contra hcon
    push_neg at hcon
    have := (Nat.le_div_iff_mul_le hM).mp hcon
    omega
  have h2lt : (A + (M - 1 - ((A + E) % M))) % M < M := Nat.mod_lt _ hM
  rcases Nat.le_one_iff_eq_zero_or_eq_one.mp h1b with h | h <;>
    rw [h] at h1 <;>
    rcases Nat.le_one_iff_eq_zero_or_eq_one.mp h2b with h' | h' <;>
    rw [h'] at h2 <;>
    omega

/-- The faithful model of `do_addition_no_controls` never returns
successfully: every run ends in `NotImplementedError` (input shorter than
target) or in the recursion limit (the function keeps calling itself with
an unchanged shape). -/
theorem do_addition_no_controls_fails : ∀ (fuel : Nat)
    (input_reg target_reg : List Nat),
    (do_addition_no_controls fuel input_reg target_reg).1 = []
    ∧ (do_addition_no_controls fuel input_reg target_reg).2.isSome = true := by
  intro fuel
  induction fuel with
  | zero => intro i t; exact ⟨rfl, rfl⟩
  | succ n ih =>
    intro i t
    have hunf : do_addition_no_controls (n + 1) i t
        = if t.length ≤ i.length then
            do_addition_no_controls n (i.take t.length) t
          else ([], some EmitError.notImplemented) := rfl
    by_cases h : t.length ≤ i.length
    · rw [hunf, if_pos h]
      exact ih (i.take t.length) t
    · rw [hunf, if_neg h]
      exact ⟨rfl, rfl⟩

/-- `do_addition` hits the broken helper on every path. -/
theorem do_addition_fails : ∀ (fuel : Nat) (input_reg target_reg : List Nat)
    (dirty : Nat) (controls : List Nat),
    (do_addition fuel input_reg target_reg dirty controls).1 = []
    ∧ (do_addition fuel input_reg target_reg dirty controls).2.isSome
        = true := by
  intro fuel i t d cs
  unfold do_addition
  by_cases hcs : cs.length = 0
  · rw [if_pos hcs]
    exact do_addition_no_controls_fails fuel i t
  · rw [if_neg hcs]
    obtain ⟨h1, h2⟩ := do_addition_no_controls_fails fuel i (d :: t)
    dsimp only
    split
    · exact ⟨h1, rfl⟩
    · rename_i hnone
      rw [hnone] at h2
      simp at h2

/-! ## The wrapper as the source intends it -/

theorem do_addition_no_controls_intended_spec
    (input_reg target_reg : List Nat)
    (hle : target_reg.length ≤ input_reg.length) :
    do_addition_no_controls_intended input_reg target_reg
      = some (do_addition_with_same_size_and_no_controls
          (input_reg.take target_reg.length) target_reg) := by
  unfold do_addition_no_controls_intended
  rw [if_pos hle]

/-- Semantics of the intended truncating wrapper: the effect is addition
of the low `len(target_reg)` bits of the input register. -/
theorem do_addition_no_controls_intended_sem
    (input_reg target_reg : List Nat) (s : State)
    (hle : target_reg.length ≤ input_reg.length)
    (hnd : (input_reg.take target_reg.length ++ target_reg).Nodup) :
    ∀ gs, do_addition_no_controls_intended input_reg target_reg = some gs →
      bitsToNat (target_reg.map (applySeq gs s))
        = (bitsToNat (input_reg.map s) + bitsToNat (target_reg.map s))
          % 2 ^ target_reg.length
      ∧ ∀ w, w ∉ target_reg → applySeq gs s w = s w := by
  intro gs hgs
  rw [do_addition_no_controls_intended_spec _ _ hle] at hgs
  injection hgs with hgs
  subst hgs
  have htk : (input_reg.take target_reg.length).length = target_reg.length := by
    rw [List.length_take]
    exact min_eq_left hle
  obtain ⟨hmap, hoff⟩ :=
    addSame_spec (input_reg.take target_reg.length) target_reg s htk hnd
  refine ⟨?_, hoff⟩
  rw [hmap, List.map_take, bitsToNat_take, Nat.mod_add_mod]

theorem do_addition_intended_eq
    (input_reg target_reg : List Nat) (dirty : Nat) (controls : List Nat)
    (hk : controls.length ≠ 0)
    (hle : target_reg.length + 1 ≤ input_reg.length) :
    do_addition_intended input_reg target_reg dirty controls
      = some ((do_addition_with_same_size_and_no_controls
            (input_reg.take (target_reg.length + 1)) (dirty :: target_reg)
          ++ [Gate.mcnot controls (dirty :: target_reg),
              Gate.notall (dirty :: target_reg)])
        ++ (do_addition_with_same_size_and_no_controls
            (input_reg.take (target_reg.length + 1)) (dirty :: target_reg)
          ++ [Gate.mcnot controls (dirty :: target_reg),
              Gate.notall (dirty :: target_reg)])) := by
  unfold do_addition_intended
  rw [if_neg hk]
  dsimp only
  rw [do_addition_no_controls_intended_spec _ _
    (by simpa using hle)]
  rfl

/-- Full correctness of the control-lifting trick, for the wrapper as
intended: when every control bit is set the target gains the input value
modulo `2 ^ n` with the dirty bit restored, and when some control bit is
clear every wire is left exactly as it was. -/
theorem do_addition_intended_sem
    (input_reg target_reg : List Nat) (dirty : Nat) (controls : List Nat)
    (s : State)
    (hk : controls.length ≠ 0)
    (hle : target_reg.length + 1 ≤ input_reg.length)
    (hnd : (controls ++ (input_reg.take (target_reg.length + 1)
        ++ (dirty :: target_reg))).Nodup) :
    ∀ gs, do_addition_intended input_reg target_reg dirty controls = some gs →
      ((∀ c ∈ controls, s c = true) →
        bitsToNat (target_reg.map (applySeq gs s))
          = (bitsToNat (input_reg.map s) + bitsToNat (target_reg.map s))
            % 2 ^ target_reg.length
        ∧ applySeq gs s dirty = s dirty
        ∧ ∀ w, w ∉ dirty :: target_reg → applySeq gs s w = s w)
      ∧ ((∃ c ∈ controls, s c = false) →
        ∀ w, applySeq gs s w = s w) := by
  intro gs hgs
  rw [do_addition_intended_eq _ _ _ _ hk hle] at hgs
  injection hgs with hgs
  subst hgs
  obtain ⟨hndc, hndie, hdisj⟩ := List.nodup_append.mp hnd
  have hdisj' := List.disjoint_left.mp hdisj
  obtain ⟨hndi, hnde, hdisjie⟩ := List.nodup_append.mp hndie
  have hdisjie' := List.disjoint_left.mp hdisjie
  set ex : List Nat := dirty :: target_reg with hex
  set iv : List Nat := input_reg.take (target_reg.length + 1) with hiv
  set core : List Gate :=
    do_addition_with_same_size_and_no_controls iv ex with hcore
  set B : List Gate := [Gate.mcnot controls ex, Gate.notall ex] with hB
  have htk : iv.length = ex.length := by
    rw [hiv, hex, List.length_take, List.length_cons]
    exact min_eq_left hle
  have hpass : ∀ t : State,
      bitsToNat (ex.map (applySeq core t))
        = (bitsToNat (iv.map t) + bitsToNat (ex.map t)) % 2 ^ ex.length
      ∧ ∀ w, w ∉ ex → applySeq core t w = t w :=
    fun t => addSame_spec iv ex t htk hndie
  have hchain : applySeq ((core ++ B) ++ (core ++ B)) s
      = applySeq B (applySeq core (applySeq B (applySeq core s))) := by
    rw [applySeq_append, applySeq_append, applySeq_append]
  have hBapp : ∀ (t : State) (w : Nat), applySeq B t w
      = applyGate (Gate.notall ex) (applyGate (Gate.mcnot controls ex) t) w := by
    intro t w
    rfl
  have hB_off : ∀ (t : State) (w : Nat), w ∉ ex → applySeq B t w = t w := by
    intro t w hw
    rw [hBapp, applyGate_notall_apply, if_neg hw,
      applyGate_mcnot_apply, if_neg (fun hcon => hw hcon.2)]
  have hiv_sub : ∀ w ∈ iv, w ∉ ex := fun w hw => hdisjie' hw
  have hivmap : ∀ t1 t2 : State, (∀ w, w ∉ ex → t1 w = t2 w) →
      iv.map t1 = iv.map t2 :=
    fun t1 t2 h => List.map_congr_left fun w hw => h w (hiv_sub w hw)
  set s1 := applySeq core s with hs1
  have hs1_off : ∀ w, w ∉ ex → s1 w = s w := (hpass s).2
  have hs1_val : bitsToNat (ex.map s1)
      = (bitsToNat (iv.map s) + bitsToNat (ex.map s)) % 2 ^ ex.length :=
    (hpass s).1
  constructor
  · -- all controls set
    intro hall
    have hB_id : ∀ t : State, (∀ c ∈ controls, t c = true) →
        applySeq B t = t := by
      intro t ht
      funext w
      have hallb : controls.all t = true := List.all_eq_true.mpr ht
      have hinner : ∀ v, applyGate (Gate.mcnot controls ex) t v
          = if v ∈ ex then !(t v) else t v := by
        intro v
        rw [applyGate_mcnot_apply]
        by_cases hv : v ∈ ex
        · rw [if_pos ⟨hallb, hv⟩, if_pos hv]
        · rw [if_neg (fun hcon => hv hcon.2), if_neg hv]
      rw [hBapp, applyGate_notall_apply]
      by_cases hw : w ∈ ex <;> simp [hw, hinner w]
    have hctl1 : ∀ c ∈ controls, s1 c = s c :=
      fun c hc => hs1_off c (fun hmem => hdisj' hc (List.mem_append.mpr (Or.inr hmem)))
    have hB1 : applySeq B s1 = s1 :=
      hB_id s1 (fun c hc => (hctl1 c hc).trans (hall c hc))
    set s2 := applySeq core s1 with hs2
    have hs2_off : ∀ w, w ∉ ex → s2 w = s1 w := (hpass s1).2
    have hctl2 : ∀ c ∈ controls, s2 c = s c :=
      fun c hc => ((hs2_off c (fun hmem =>
        hdisj' hc (List.mem_append.mpr (Or.inr hmem)))).trans (hctl1 c hc))
    have hB2 : applySeq B s2 = s2 :=
      hB_id s2 (fun c hc => (hctl2 c hc).trans (hall c hc))
    have hfin : applySeq ((core ++ B) ++ (core ++ B)) s = s2 := by
      rw [hchain, hB1, hB2]
    have hs2_val : bitsToNat (ex.map s2)
        = (bitsToNat (iv.map s) + bitsToNat (iv.map s)
            + bitsToNat (ex.map s)) % 2 ^ ex.length := by
      rw [(hpass s1).1, hivmap s1 s hs1_off, hs1_val, Nat.add_mod_mod,
        ← Nat.add_assoc]
    -- split the expanded register into dirty bit and target register
    have hexmap : ∀ t : State, ex.map t = t dirty :: target_reg.map t := by
      intro t
      rw [hex, List.map_cons]
    have hexval : ∀ t : State, bitsToNat (ex.map t)
        = cond (t dirty) 1 0 + 2 * bitsToNat (target_reg.map t) := by
      intro t
      rw [hexmap]
      rfl
    have hexlen : ex.length = target_reg.length + 1 := by
      rw [hex, List.length_cons]
    have hsum : cond (s2 dirty) 1 0 + 2 * bitsToNat (target_reg.map s2)
        = cond (s dirty) 1 0 + 2 * ((bitsToNat (iv.map s)
            + bitsToNat (target_reg.map s)) % 2 ^ target_reg.length) := by
      rw [← hexval, hs2_val, hexval s, hexlen,
        show bitsToNat (iv.map s) + bitsToNat (iv.map s)
            + (cond (s dirty) 1 0 + 2 * bitsToNat (target_reg.map s))
          = cond (s dirty) 1 0 + 2 * (bitsToNat (iv.map s)
            + bitsToNat (target_reg.map s)) from by ring,
        mod_double _ _ _ (by cases s dirty <;> simp)]
    have hdirty : s2 dirty = s dirty := by
      cases h2 : s2 dirty <;> cases h0 : s dirty <;>
        rw [h2, h0] at hsum <;> simp at hsum ⊢ <;> omega
    have htgt : bitsToNat (target_reg.map s2)
        = (bitsToNat (iv.map s) + bitsToNat (target_reg.map s))
          % 2 ^ target_reg.length := by
      rw [hdirty] at hsum
      omega
    have hivfull : bitsToNat (iv.map s) % 2 ^ target_reg.length
        = bitsToNat (input_reg.map s) % 2 ^ target_reg.length := by
      rw [hiv, List.map_take, bitsToNat_take]
      exact Nat.mod_mod_of_dvd _ (pow_dvd_pow 2 (by omega))
    refine ⟨?_, ?_, ?_⟩
    · rw [hfin, htgt, ← Nat.mod_add_mod, hivfull, Nat.mod_add_mod]
    · rw [hfin, hdirty]
    · intro w hw
      rw [hfin, hs2_off w hw, hs1_off w hw]
  · -- some control clear
    rintro ⟨c0, hc0m, hc0⟩
    have hc0ex : c0 ∉ ex :=
      fun hmem => hdisj' hc0m (List.mem_append.mpr (Or.inr hmem))
    have hB_flip : ∀ (t : State), t c0 = false → ∀ w,
        applySeq B t w = if w ∈ ex then !(t w) else t w := by
      intro t ht w
      have hallf : controls.all t = false :=
        List.all_eq_false.mpr ⟨c0, hc0m, by simp [ht]⟩
      have hinner : ∀ v, applyGate (Gate.mcnot controls ex) t v = t v := by
        intro v
        rw [applyGate_mcnot_apply, if_neg (fun hcon => by
          rw [hallf] at hcon
          exact Bool.false_ne_true hcon.1)]
      rw [hBapp, applyGate_notall_apply, hinner w]
    have hs1c0 : s1 c0 = false := (hs1_off c0 hc0ex).trans hc0
    set sB1 := applySeq B s1 with hsB1
    have hsB1_off : ∀ w, w ∉ ex → sB1 w = s1 w := fun w hw => by
      rw [hsB1, hB_flip s1 hs1c0 w, if_neg hw]
    have hsB1_ex : ex.map sB1 = (ex.map s1).map (fun b => !b) := by
      rw [List.map_map]
      refine List.map_congr_left fun w hw => ?_
      rw [hsB1, hB_flip s1 hs1c0 w, if_pos hw]
      rfl
    set s2 := applySeq core sB1 with hs2
    have hs2_off : ∀ w, w ∉ ex → s2 w = sB1 w := (hpass sB1).2
    have hs2c0 : s2 c0 = false :=
      ((hs2_off c0 hc0ex).trans ((hsB1_off c0 hc0ex).trans hs1c0))
    set sB2 := applySeq B s2 with hsB2
    have hsB2_off : ∀ w, w ∉ ex → sB2 w = s2 w := fun w hw => by
      rw [hsB2, hB_flip s2 hs2c0 w, if_neg hw]
    have hsB2_ex : ex.map sB2 = (ex.map s2).map (fun b => !b) := by
      rw [List.map_map]
      refine List.map_congr_left fun w hw => ?_
      rw [hsB2, hB_flip s2 hs2c0 w, if_pos hw]
      rfl
    have hfin : applySeq ((core ++ B) ++ (core ++ B)) s = sB2 := by
      rw [hchain]
    -- numeric bookkeeping
    have hM : (0:ℕ) < 2 ^ ex.length := Nat.two_pow_pos _
    have hE : bitsToNat (ex.map s) < 2 ^ ex.length := by
      have := bitsToNat_lt (ex.map s)
      rwa [List.length_map] at this
    have hA : bitsToNat (iv.map s) < 2 ^ ex.length := by
      have := bitsToNat_lt (iv.map s)
      rwa [List.length_map, htk] at this
    have hcomp1 : bitsToNat (ex.map sB1) + bitsToNat (ex.map s1) + 1
        = 2 ^ ex.length := by
      have := bitsToNat_map_not (ex.map s1)
      rw [List.length_map] at this
      rw [hsB1_ex]
      exact this
    have hs2_val : bitsToNat (ex.map s2)
        = (bitsToNat (iv.map s) + bitsToNat (ex.map sB1)) % 2 ^ ex.length := by
      rw [(hpass sB1).1, hivmap sB1 s
        (fun w hw => (hsB1_off w hw).trans (hs1_off w hw))]
    have hcomp2 : bitsToNat (ex.map sB2) + bitsToNat (ex.map s2) + 1
        = 2 ^ ex.length := by
      have := bitsToNat_map_not (ex.map s2)
      rw [List.length_map] at this
      rw [hsB2_ex]
      exact this
    have hcancel : bitsToNat (ex.map sB2) = bitsToNat (ex.map s) := by
      have hd := double_pass_cancel (bitsToNat (iv.map s))
        (bitsToNat (ex.map s)) (2 ^ ex.length) hM hA hE
      rw [← hs1_val] at hd
      have hb1 : bitsToNat (ex.map sB1)
          = 2 ^ ex.length - 1 - bitsToNat (ex.map s1) := by omega
      rw [← hb1] at hd
      rw [← hs2_val] at hd
      omega
    have hexeq : ex.map sB2 = ex.map s :=
      bitsToNat_inj _ _ (by rw [List.length_map, List.length_map]) hcancel
    intro w
    rw [hfin]
    by_cases hw : w ∈ ex
    · exact map_eq_of_mem ex hexeq w hw
    · rw [hsB2_off w hw, hs2_off w hw, hsB1_off w hw, hs1_off w hw]

/-- The borrowed carry bit is restored by the full sequence. -/
theorem carry_restored_aux (xs ys : List Nat) (s : State)
    (hlen : xs.length = ys.length) (hn1 : 1 ≤ ys.length)
    (hnd : (xs ++ ys).Nodup) :
    applySeq (do_addition_with_same_size_and_no_controls xs ys) s
      (xs.getLastD 0) = s (xs.getLastD 0) := by
  obtain ⟨_, hoff⟩ := addSame_spec xs ys s hlen hnd
  have hdisj := (List.nodup_append.mp hnd).2.2
  have hxs : xs ≠ [] := by
    intro h
    rw [h] at hlen
    simp at hlen
    omega
  have hcbmem : xs.getLastD 0 ∈ xs := by
    cases xs with
    | nil => exact absurd rfl hxs
    | cons a l =>
      rw [List.getLastD_cons]
      exact List.getLastD_mem_cons l a
  exact hoff _ (List.disjoint_left.mp hdisj hcbmem)

/-! ## Claim theorems -/

/-- C1: for every `n ≥ 0` and all register values `a, b` in `[0, 2^n)`
(encoded on pairwise distinct wires), executing the sequence emitted by
`do_addition_with_same_size_and_no_controls` leaves the input register
unchanged and sets the target register to `(a + b) mod 2^n`. -/
theorem addition_computes_modular_sum (xs ys : List Nat) (s : State)
    (hlen : xs.length = ys.length) (hnd : (xs ++ ys).Nodup) :
    xs.map (applySeq (do_addition_with_same_size_and_no_controls xs ys) s)
        = xs.map s
    ∧ bitsToNat (ys.map
        (applySeq (do_addition_with_same_size_and_no_controls xs ys) s))
      = (bitsToNat (xs.map s) + bitsToNat (ys.map s)) % 2 ^ ys.length := by
  obtain ⟨hmap, hoff⟩ := addSame_spec xs ys s hlen hnd
  refine ⟨?_, hmap⟩
  have hdisj := (List.nodup_append.mp hnd).2.2
  exact List.map_congr_left fun w hw =>
    hoff w (List.disjoint_left.mp hdisj hw)

theorem addition_computes_modular_sum_witness :
    (([0,1,2] : List Nat).length = ([3,4,5] : List Nat).length
      ∧ (([0,1,2] : List Nat) ++ [3,4,5]).Nodup)
    ∧ (([0,1,2] : List Nat).map
        (applySeq (do_addition_with_same_size_and_no_controls
          [0,1,2] [3,4,5]) witState)
        = ([0,1,2] : List Nat).map witState
      ∧ bitsToNat (([3,4,5] : List Nat).map
          (applySeq (do_addition_with_same_size_and_no_controls
            [0,1,2] [3,4,5]) witState))
        = (bitsToNat (([0,1,2] : List Nat).map witState)
            + bitsToNat (([3,4,5] : List Nat).map witState))
          % 2 ^ ([3,4,5] : List Nat).length) :=
  ⟨⟨rfl, by decide⟩,
    addition_computes_modular_sum [0,1,2] [3,4,5] witState rfl (by decide)⟩

/-- C2: the emitted addition sequence followed by its structural inverse
(the `Dagger` replay in reverse order with each self-inverse primitive
repeated, as `do_subtraction_no_controls` produces) returns every bit —
both registers and the borrowed carry bit, whatever its dirty value — to
its exact original value. -/
theorem addition_then_dagger_identity (xs ys : List Nat) (s : State)
    (hlen : xs.length = ys.length) (hnd : (xs ++ ys).Nodup) :
    applySeq (do_addition_with_same_size_and_no_controls xs ys
        ++ dagger (do_addition_with_same_size_and_no_controls xs ys)) s
      = s :=
  applySeq_dagger_cancel _ (addSame_wf xs ys hlen hnd) s

theorem addition_then_dagger_identity_witness :
    (([0,1,2] : List Nat).length = ([3,4,5] : List Nat).length
      ∧ (([0,1,2] : List Nat) ++ [3,4,5]).Nodup)
    ∧ applySeq (do_addition_with_same_size_and_no_controls [0,1,2] [3,4,5]
        ++ dagger (do_addition_with_same_size_and_no_controls
          [0,1,2] [3,4,5])) witState = witState :=
  ⟨⟨rfl, by decide⟩,
    addition_then_dagger_identity [0,1,2] [3,4,5] witState rfl (by decide)⟩

/-- C3: for every `n ≥ 1` and every initial bit assignment (garbage in
the borrowed carry bit `input_reg[-1]` included), after the full 5-phase
sequence the carry bit and every other input-register bit hold exactly
their initial values. -/
theorem carry_and_input_restored (xs ys : List Nat) (s : State)
    (hlen : xs.length = ys.length) (hn1 : 1 ≤ ys.length)
    (hnd : (xs ++ ys).Nodup) :
    applySeq (do_addition_with_same_size_and_no_controls xs ys) s
        (xs.getLastD 0)
      = s (xs.getLastD 0)
    ∧ ∀ w ∈ xs,
      applySeq (do_addition_with_same_size_and_no_controls xs ys) s w
        = s w := by
  obtain ⟨_, hoff⟩ := addSame_spec xs ys s hlen hnd
  have hdisj := (List.nodup_append.mp hnd).2.2
  have hxmem : ∀ w ∈ xs, w ∉ ys := fun w hw => List.disjoint_left.mp hdisj hw
  have hxs : xs ≠ [] := by
    intro h
    rw [h] at hlen
    simp at hlen
    omega
  have hcbmem : xs.getLastD 0 ∈ xs := by
    cases xs with
    | nil => exact absurd rfl hxs
    | cons a l =>
      rw [List.getLastD_cons]
      exact List.getLastD_mem_cons l a
  exact ⟨hoff _ (hxmem _ hcbmem), fun w hw => hoff w (hxmem w hw)⟩

theorem carry_and_input_restored_witness :
    (([0,1,2] : List Nat).length = ([3,4,5] : List Nat).length
      ∧ 1 ≤ ([3,4,5] : List Nat).length
      ∧ (([0,1,2] : List Nat) ++ [3,4,5]).Nodup)
    ∧ (applySeq (do_addition_with_same_size_and_no_controls
          [0,1,2] [3,4,5]) witState (([0,1,2] : List Nat).getLastD 0)
        = witState (([0,1,2] : List Nat).getLastD 0)
      ∧ ∀ w ∈ ([0,1,2] : List Nat),
        applySeq (do_addition_with_same_size_and_no_controls
          [0,1,2] [3,4,5]) witState w = witState w) :=
  ⟨⟨rfl, by decide, by decide⟩,
    carry_and_input_restored [0,1,2] [3,4,5] witState rfl (by decide)
      (by decide)⟩

/-- C6: when the input register is strictly shorter than the target
register, `do_addition_no_controls` raises `NotImplementedError`
immediately, emitting no gates and computing no best-effort result. -/
theorem short_input_raises_not_implemented (fuel : Nat)
    (input_reg target_reg : List Nat)
    (h : input_reg.length < target_reg.length) :
    do_addition_no_controls (fuel + 1) input_reg target_reg
      = ([], some EmitError.notImplemented) := by
  have hunf : do_addition_no_controls (fuel + 1) input_reg target_reg
      = if target_reg.length ≤ input_reg.length then
          do_addition_no_controls fuel
            (input_reg.take target_reg.length) target_reg
        else ([], some EmitError.notImplemented) := rfl
  rw [hunf, if_neg (by omega)]

theorem short_input_raises_not_implemented_witness :
    ([] : List Nat).length < ([0] : List Nat).length
    ∧ do_addition_no_controls 1 [] [0]
        = ([], some EmitError.notImplemented) :=
  ⟨by decide, short_input_raises_not_implemented 0 [] [0] (by decide)⟩

/-- C7: every failing run of `do_addition` or `do_addition_no_controls`
fails with the emitted gate list empty — there is never a partially-built
circuit. -/
theorem failures_emit_no_gates (fuel : Nat)
    (input_reg target_reg : List Nat) (dirty : Nat) (controls : List Nat) :
    ((do_addition_no_controls fuel input_reg target_reg).2.isSome = true →
      (do_addition_no_controls fuel input_reg target_reg).1 = [])
    ∧ ((do_addition fuel input_reg target_reg dirty controls).2.isSome
          = true →
      (do_addition fuel input_reg target_reg dirty controls).1 = []) :=
  ⟨fun _ => (do_addition_no_controls_fails fuel input_reg target_reg).1,
    fun _ => (do_addition_fails fuel input_reg target_reg dirty controls).1⟩

theorem failures_emit_no_gates_witness :
    (do_addition_no_controls 1 [] [0]).1 = []
    ∧ (do_addition 1 [] [0] 2 [3]).1 = [] :=
  ⟨(failures_emit_no_gates 1 [] [0] 2 [3]).1 (by decide),
    (failures_emit_no_gates 1 [] [0] 2 [3]).2 (by decide)⟩

/-- C8: phase 5 is the same multi-target controlled NOT as phase 1 — the
same carry-bit control and the same set of targets (phase 1 lists them
reversed) — the two gates act identically on every state, and the full
sequence restores the carry bit to its exact original dirty value. -/
theorem phase5_matches_phase1 (xs ys : List Nat)
    (hlen : xs.length = ys.length) (hne : ys ≠ [])
    (hnd : (xs ++ ys).Nodup) :
    (do_addition_with_same_size_and_no_controls xs ys).head?
        = some (Gate.mcnot [xs.getLastD 0] ((xs.dropLast ++ ys).reverse))
    ∧ (do_addition_with_same_size_and_no_controls xs ys).getLast?
        = some (Gate.mcnot [xs.getLastD 0] (xs.dropLast ++ ys))
    ∧ (∀ t : State,
        applyGate (Gate.mcnot [xs.getLastD 0]
          ((xs.dropLast ++ ys).reverse)) t
        = applyGate (Gate.mcnot [xs.getLastD 0] (xs.dropLast ++ ys)) t)
    ∧ ∀ s : State,
        applySeq (do_addition_with_same_size_and_no_controls xs ys) s
          (xs.getLastD 0)
        = s (xs.getLastD 0) := by
  refine ⟨?_, ?_, ?_, ?_⟩
  · rw [do_addition_with_same_size_and_no_controls_eq xs ys hlen hne]
    rfl
  · rw [do_addition_with_same_size_and_no_controls_eq xs ys hlen hne,
      show Gate.mcnot [xs.getLastD 0] ((xs.dropLast ++ ys).reverse)
          :: (coreGates xs.dropLast ys (xs.getLastD 0)
            ++ [Gate.mcnot [xs.getLastD 0] (xs.dropLast ++ ys)])
        = (Gate.mcnot [xs.getLastD 0] ((xs.dropLast ++ ys).reverse)
          :: coreGates xs.dropLast ys (xs.getLastD 0))
          ++ [Gate.mcnot [xs.getLastD 0] (xs.dropLast ++ ys)]
        from rfl,
      List.getLast?_concat]
  · intro t
    funext w
    rw [applyGate_mcnot_apply, applyGate_mcnot_apply]
    simp only [List.mem_reverse]
  · intro s
    have hn1 : 1 ≤ ys.length := by
      cases ys with
      | nil => exact absurd rfl hne
      | cons a l => simp
    exact (carry_restored_aux xs ys s hlen hn1 hnd)

theorem phase5_matches_phase1_witness :
    (([0,1,2] : List Nat).length = ([3,4,5] : List Nat).length
      ∧ ([3,4,5] : List Nat) ≠ []
      ∧ (([0,1,2] : List Nat) ++ [3,4,5]).Nodup)
    ∧ ((do_addition_with_same_size_and_no_controls
          ([0,1,2] : List Nat) [3,4,5]).head?
        = some (Gate.mcnot [([0,1,2] : List Nat).getLastD 0]
            ((([0,1,2] : List Nat).dropLast ++ [3,4,5]).reverse))
      ∧ (do_addition_with_same_size_and_no_controls
          ([0,1,2] : List Nat) [3,4,5]).getLast?
        = some (Gate.mcnot [([0,1,2] : List Nat).getLastD 0]
            (([0,1,2] : List Nat).dropLast ++ [3,4,5]))
      ∧ (∀ t : State,
          applyGate (Gate.mcnot [([0,1,2] : List Nat).getLastD 0]
            ((([0,1,2] : List Nat).dropLast ++ [3,4,5]).reverse)) t
          = applyGate (Gate.mcnot [([0,1,2] : List Nat).getLastD 0]
            (([0,1,2] : List Nat).dropLast ++ [3,4,5])) t)
      ∧ ∀ s : State,
          applySeq (do_addition_with_same_size_and_no_controls
            ([0,1,2] : List Nat) [3,4,5]) s
            (([0,1,2] : List Nat).getLastD 0)
          = s (([0,1,2] : List Nat).getLastD 0)) :=
  ⟨⟨rfl, by decide, by decide⟩,
    phase5_matches_phase1 [0,1,2] [3,4,5] rfl (by decide) (by decide)⟩

/-- C10: gate-tag inversion swaps the two operation tags, applying it
twice yields the original tag, and `get_merged` raises `NotMergeable` for
every argument. -/
theorem gate_tag_inverse_involution :
    (∀ g : GateKind, get_inverse (get_inverse g) = g)
    ∧ get_inverse GateKind.AdditionGate = GateKind.SubtractionGate
    ∧ get_inverse GateKind.SubtractionGate = GateKind.AdditionGate
    ∧ ∀ (α : Type) (g : GateKind) (o : α),
      get_merged g o
        = Except.error "BasicGate: No get_merged() implemented." :=
  ⟨fun g => by cases g <;> rfl, rfl, rfl, fun _ _ _ => rfl⟩

/-- C5 (code bug): the shipped `do_addition_no_controls` never emits a
sequence — it recurses into itself with an unchanged shape on every
`len(input) ≥ len(target)` call (and raises `NotImplementedError`
otherwise) — while the version its comment intends (truncate, then
delegate to the equal-size synthesizer) terminates and computes addition
with only the low `len(target)` bits of the input register. -/
theorem do_addition_no_controls_broken (fuel : Nat)
    (input_reg target_reg : List Nat) (s : State)
    (hle : target_reg.length ≤ input_reg.length)
    (hnd : (input_reg.take target_reg.length ++ target_reg).Nodup) :
    (do_addition_no_controls fuel input_reg target_reg).2.isSome = true
    ∧ do_addition_no_controls_intended input_reg target_reg
        = some (do_addition_with_same_size_and_no_controls
            (input_reg.take target_reg.length) target_reg)
    ∧ ∀ gs, do_addition_no_controls_intended input_reg target_reg
          = some gs →
        bitsToNat (target_reg.map (applySeq gs s))
          = (bitsToNat (input_reg.map s) + bitsToNat (target_reg.map s))
            % 2 ^ target_reg.length :=
  ⟨(do_addition_no_controls_fails fuel input_reg target_reg).2,
    do_addition_no_controls_intended_spec input_reg target_reg hle,
    fun gs hgs =>
      (do_addition_no_controls_intended_sem input_reg target_reg s hle hnd
        gs hgs).1⟩

theorem do_addition_no_controls_broken_witness :
    (([3,4] : List Nat).length ≤ ([0,1,2] : List Nat).length
      ∧ (([0,1,2] : List Nat).take ([3,4] : List Nat).length
          ++ [3,4]).Nodup)
    ∧ ((do_addition_no_controls 5 [0,1,2] [3,4]).2.isSome = true
      ∧ do_addition_no_controls_intended [0,1,2] [3,4]
          = some (do_addition_with_same_size_and_no_controls
              (([0,1,2] : List Nat).take ([3,4] : List Nat).length) [3,4])
      ∧ ∀ gs, do_addition_no_controls_intended [0,1,2] [3,4] = some gs →
          bitsToNat (([3,4] : List Nat).map (applySeq gs witState))
            = (bitsToNat (([0,1,2] : List Nat).map witState)
                + bitsToNat (([3,4] : List Nat).map witState))
              % 2 ^ ([3,4] : List Nat).length) :=
  ⟨⟨by decide, by decide⟩,
    do_addition_no_controls_broken 5 [0,1,2] [3,4] witState (by decide)
      (by decide)⟩

/-- C4 (code bug): the shipped `do_addition` fails on every call — with
controls it hands `expanded` to the broken `do_addition_no_controls`,
which never succeeds — while the control-lifted sequence the source
intends is correct: with every control set the target register gains the
input value modulo `2 ^ n` and the dirty bit is restored, and with any
control clear every wire is left exactly unchanged. -/
theorem do_addition_gating (fuel : Nat) (input_reg target_reg : List Nat)
    (dirty : Nat) (controls : List Nat) (s : State)
    (hk : controls.length ≠ 0)
    (hle : target_reg.length + 1 ≤ input_reg.length)
    (hnd : (controls ++ (input_reg.take (target_reg.length + 1)
        ++ (dirty :: target_reg))).Nodup) :
    ((do_addition fuel input_reg target_reg dirty controls).2.isSome = true
      ∧ (do_addition fuel input_reg target_reg dirty controls).1 = [])
    ∧ ∀ gs, do_addition_intended input_reg target_reg dirty controls
          = some gs →
        ((∀ c ∈ controls, s c = true) →
          bitsToNat (target_reg.map (applySeq gs s))
            = (bitsToNat (input_reg.map s) + bitsToNat (target_reg.map s))
              % 2 ^ target_reg.length
          ∧ applySeq gs s dirty = s dirty)
        ∧ ((∃ c ∈ controls, s c = false) →
          ∀ w, applySeq gs s w = s w) := by
  refine ⟨⟨(do_addition_fails fuel input_reg target_reg dirty controls).2,
    (do_addition_fails fuel input_reg target_reg dirty controls).1⟩,
    fun gs hgs => ?_⟩
  obtain ⟨hon, hoffc⟩ := do_addition_intended_sem input_reg target_reg
    dirty controls s hk hle hnd gs hgs
  exact ⟨fun h => ⟨(hon h).1, (hon h).2.1⟩, hoffc⟩

theorem do_addition_gating_witness :
    (([4] : List Nat).length ≠ 0
      ∧ ([2] : List Nat).length + 1 ≤ ([0,1] : List Nat).length
      ∧ (([4] : List Nat) ++ (([0,1] : List Nat).take
          (([2] : List Nat).length + 1) ++ (3 :: [2]))).Nodup)
    ∧ (((do_addition 2 [0,1] [2] 3 [4]).2.isSome = true
        ∧ (do_addition 2 [0,1] [2] 3 [4]).1 = [])
      ∧ ∀ gs, do_addition_intended [0,1] [2] 3 [4] = some gs →
          ((∀ c ∈ ([4] : List Nat), witState c = true) →
            bitsToNat (([2] : List Nat).map (applySeq gs witState))
              = (bitsToNat (([0,1] : List Nat).map witState)
                  + bitsToNat (([2] : List Nat).map witState))
                % 2 ^ ([2] : List Nat).length
            ∧ applySeq gs witState 3 = witState 3)
          ∧ ((∃ c ∈ ([4] : List Nat), witState c = false) →
            ∀ w, applySeq gs witState w = witState w)) :=
  ⟨⟨by decide, by decide, by decide⟩,
    do_addition_gating 2 [0,1] [2] 3 [4] witState (by decide) (by decide)
      (by decide)⟩

/-- C9 (code bug in the wrapper, count correct in the synthesizer): the
uncontrolled equal-length synthesizer emits no gate for `n = 0` and at
most `4 n` gates in general, and the controlled wrapper as intended emits
exactly two uncontrolled-addition passes each followed by one
`k`-controlled multi-NOT and one unconditional multi-NOT — `O(n + k)`
invocations, never exponential in `k` (the shipped wrapper instead fails
before emitting anything). -/
theorem gate_count_linear (xs ys input_reg target_reg : List Nat)
    (dirty : Nat) (controls : List Nat)
    (hlen : xs.length = ys.length)
    (hk : controls.length ≠ 0)
    (hle : target_reg.length + 1 ≤ input_reg.length) :
    ((ys.length = 0 →
        do_addition_with_same_size_and_no_controls xs ys = [])
      ∧ (do_addition_with_same_size_and_no_controls xs ys).length
          ≤ 4 * ys.length)
    ∧ ∃ pass,
      do_addition_intended input_reg target_reg dirty controls
          = some (pass ++ pass)
      ∧ pass = do_addition_with_same_size_and_no_controls
            (input_reg.take (target_reg.length + 1)) (dirty :: target_reg)
          ++ [Gate.mcnot controls (dirty :: target_reg),
              Gate.notall (dirty :: target_reg)]
      ∧ (pass ++ pass).length ≤ 8 * target_reg.length + 12 := by
  refine ⟨⟨?_, ?_⟩, ?_⟩
  · intro h
    have : ys = [] := List.eq_nil_of_length_eq_zero h
    subst this
    rfl
  · rw [addSame_length xs ys hlen]
    split <;> omega
  · refine ⟨_, do_addition_intended_eq input_reg target_reg dirty controls
      hk hle, rfl, ?_⟩
    have hcl : (do_addition_with_same_size_and_no_controls
        (input_reg.take (target_reg.length + 1))
        (dirty :: target_reg)).length
        = if (dirty :: target_reg).length = 0 then 0
          else 4 * (dirty :: target_reg).length - 1 :=
      addSame_length _ _ (by
        rw [List.length_take, List.length_cons]
        exact min_eq_left hle)
    rw [List.length_append, List.length_append, hcl]
    simp only [List.length_cons, List.length_nil]
    split <;> omega

theorem gate_count_linear_witness :
    (([0,1,2] : List Nat).length = ([3,4,5] : List Nat).length
      ∧ ([4] : List Nat).length ≠ 0
      ∧ ([2] : List Nat).length + 1 ≤ ([0,1] : List Nat).length)
    ∧ (((([3,4,5] : List Nat).length = 0 →
          do_addition_with_same_size_and_no_controls [0,1,2] [3,4,5] = [])
        ∧ (do_addition_with_same_size_and_no_controls
            ([0,1,2] : List Nat) [3,4,5]).length
            ≤ 4 * ([3,4,5] : List Nat).length)
      ∧ ∃ pass,
        do_addition_intended [0,1] [2] 3 [4] = some (pass ++ pass)
        ∧ pass = do_addition_with_same_size_and_no_controls
              (([0,1] : List Nat).take (([2] : List Nat).length + 1))
              (3 :: [2])
            ++ [Gate.mcnot [4] (3 :: [2]), Gate.notall (3 :: [2])]
        ∧ (pass ++ pass).length ≤ 8 * ([2] : List Nat).length + 12) :=
  ⟨⟨rfl, by decide, by decide⟩,
    gate_count_linear [0,1,2] [3,4,5] [0,1] [2] 3 [4] rfl (by decide)
      (by decide)⟩

end Shor
